import Mathlib

/-!
Verification of the hecto/donovim text-editor core: grapheme-indexed line
buffer (`Row`), document buffer (`Document`), and cursor/viewport motion
(`Editor`), shallowly embedded from the Rust sources (src/row.rs,
src/document.rs, src/editor.rs).  Strings are modelled as `List Char`
(Unicode scalar values); fallible operations return `Option`; file-system
effects are modelled by explicit oracles.
-/

set_option autoImplicit false

namespace Hecto

/-- Modelled from the spec: the `unicode_segmentation` crate (an external
collaborator) supplies extended grapheme clusters.  We model the cluster
rules for combining marks (U+0300–U+036F): a combining mark never starts a
new cluster, every other character does.  This captures the merging
behaviour ("multi-byte / multi-codepoint clusters must count as one
position unit") that the spec's Line invariants are about. -/
def isCombining (c : Char) : Bool :=
  decide (0x300 ≤ c.toNat) && decide (c.toNat ≤ 0x36F)

/-- Extended grapheme cluster segmentation of a list of scalar values,
under the combining-mark model: a cluster is a character together with the
maximal run of combining marks that follows it (a leading run of combining
marks forms its own cluster). -/
def graphemes : List Char → List (List Char)
  | [] => []
  | c :: rest =>
    match rest.head? with
    | none => [[c]]
    | some d =>
      if isCombining d then
        match graphemes rest with
        | [] => [[c]]
        | g :: gs => (c :: g) :: gs
      else [c] :: graphemes rest

/-- Semantic highlight type of a single grapheme, from src/highlighting.rs
(`highlighting::Type`). -/
inductive HLType where
  | none
  | number
  | match_
  | string
  | character
  | comment
  | multilineComment
  | primaryKeywords
  | secondaryKeywords
deriving DecidableEq, Repr

/-- A single editable text line, from src/row.rs (`Row`).  The fields
`string` and `len` are the two fields of the source struct; the fields
`is_highlighted` and `highlighting` are referenced by src/document.rs
(`row.is_highlighted`) but their declaration is missing from src/row.rs,
so they are modelled from the spec (HighlightSpan / Line highlight state:
a per-grapheme type tag attached 1:1 to its Line). -/
structure Row where
  string : List Char
  len : Nat
  is_highlighted : Bool
  highlighting : List HLType
deriving DecidableEq, Repr

/-- `Row::default()`: empty content, zero cached length. -/
def Row.default : Row :=
  { string := [], len := 0, is_highlighted := false, highlighting := [] }

/-- `impl From<&str> for Row`: store the text and cache its grapheme
count. -/
def Row.fromStr (s : List Char) : Row :=
  { string := s
    len := (graphemes s).length
    is_highlighted := false
    highlighting := [] }

/-- Cached length accessor, `Row::len`. -/
def Row.length (r : Row) : Nat := r.len

/-- `Row::is_empty`. -/
def Row.isEmptyRow (r : Row) : Bool := r.len == 0

/-- The loop body of `Row::insert` (src/row.rs lines 53-62): walk the
enumerated graphemes; at index `at` push the new character first; count
every pushed item.  Returns the rebuilt string and the new count. -/
def insertLoop (at_ : Nat) (c : Char) : Nat → List (List Char) → List Char × Nat
  | _, [] => ([], 0)
  | idx, g :: gs =>
    let r := insertLoop at_ c (idx + 1) gs
    if idx = at_ then (c :: (g ++ r.1), r.2 + 2) else (g ++ r.1, r.2 + 1)

/-- `Row::insert(at, c)`: if `at` is at or past the cached length, push the
character at the end and bump the cached count; otherwise rebuild the
string grapheme by grapheme, inserting `c` before the grapheme at index
`at`, and recount while walking. -/
def Row.insert (r : Row) (at_ : Nat) (c : Char) : Row :=
  if at_ ≥ r.len then
    { r with string := r.string ++ [c], len := r.len + 1 }
  else
    let res := insertLoop at_ c 0 (graphemes r.string)
    { r with string := res.1, len := res.2 }

/-- The loop body of `Row::delete` (src/row.rs lines 76-81): keep every
grapheme whose index differs from `at`, counting the kept ones. -/
def deleteLoop (at_ : Nat) : Nat → List (List Char) → List Char × Nat
  | _, [] => ([], 0)
  | idx, g :: gs =>
    let r := deleteLoop at_ (idx + 1) gs
    if idx ≠ at_ then (g ++ r.1, r.2 + 1) else (r.1, r.2)

/-- `Row::delete(at)`: no-op when `at` is at or past the cached length,
otherwise drop the grapheme at index `at` and recount. -/
def Row.delete (r : Row) (at_ : Nat) : Row :=
  if at_ ≥ r.len then r
  else
    let res := deleteLoop at_ 0 (graphemes r.string)
    { r with string := res.1, len := res.2 }

/-- The loop body of `Row::split` (src/row.rs lines 101-109): graphemes
with index below `at` go to the first part, the rest to the second, each
part counted as it is built.  Result: (left string, left count, right
string, right count). -/
def splitLoop (at_ : Nat) : Nat → List (List Char) → List Char × Nat × List Char × Nat
  | _, [] => ([], 0, [], 0)
  | idx, g :: gs =>
    let r := splitLoop at_ (idx + 1) gs
    if idx < at_ then (g ++ r.1, r.2.1 + 1, r.2.2.1, r.2.2.2)
    else (r.1, r.2.1, g ++ r.2.2.1, r.2.2.2 + 1)

/-- `Row::split(at)`: truncate to graphemes `[0, at)` and return the
remainder `[at, end)` as a fresh `Row` (the fresh row carries default
highlight state, as a newly constructed struct). -/
def Row.split (r : Row) (at_ : Nat) : Row × Row :=
  let res := splitLoop at_ 0 (graphemes r.string)
  ({ r with string := res.1, len := res.2.1 },
   { string := res.2.2.1, len := res.2.2.2
     is_highlighted := false, highlighting := [] })

/-- `Row::append(new)`: concatenate the other row's text and add the
cached counts. -/
def Row.append (r other : Row) : Row :=
  { r with string := r.string ++ other.string, len := r.len + other.len }

/-- A character list whose head (if any) is not a combining mark; such a
list starts a fresh grapheme cluster when appended after anything. -/
def headNC (t : List Char) : Bool :=
  match t.head? with
  | Option.none => true
  | Option.some d => !isCombining d

/-- A well-formed cluster: nonempty, and everything after the head is a
combining mark. -/
def validCluster (g : List Char) : Bool :=
  match g with
  | [] => false
  | _ :: t => t.all isCombining

/-- The Line cache invariant from the spec: the cached count equals the
number of extended grapheme clusters of the content. -/
def rowInv (r : Row) : Prop := r.len = (graphemes r.string).length

instance (r : Row) : Decidable (rowInv r) :=
  inferInstanceAs (Decidable (r.len = (graphemes r.string).length))

/-- Cursor / buffer position from src/editor.rs (`Position`): `x` is a
grapheme column, `y` a 0-based line index. -/
structure Position where
  x : Nat
  y : Nat
deriving DecidableEq, Repr

/-- Modelled from the spec: the highlighting options carried by a file
type (src/filetype.rs is declared in lib.rs but missing from src); per
spec §6 a file type carries keyword sets and comment delimiters.  Only the
multiline-comment capability is relevant to the claims. -/
structure HighlightingOptions where
  multiline_comments : Bool
deriving DecidableEq, Repr

/-- Modelled from the spec: `FileType` (src/filetype.rs, missing from
src); per spec §6 a pure lookup from filename to a file-type identifier
plus its highlighting rules.  We model the Rust lookup: names ending in
".rs" map to the Rust file type, everything else to the default. -/
structure FileType where
  name : List Char
  hlopts : HighlightingOptions
deriving DecidableEq, Repr

def FileType.default : FileType :=
  { name := "No filetype".toList, hlopts := { multiline_comments := false } }

def FileType.ofName (file_name : List Char) : FileType :=
  if ".rs".toList.isSuffixOf file_name then
    { name := "Rust".toList, hlopts := { multiline_comments := true } }
  else FileType.default

/-- Modelled from the spec: `Row::find` (called by src/document.rs but
missing from src/row.rs); per spec §4.3 it returns the first position at
or after the starting column whose suffix contains the query as a
case-sensitive substring, the returned column being "exactly the grapheme
offset at which the query substring starts". -/
def findGo (query : List Char) : Nat → List (List Char) → Option Nat
  | i, [] => if query.isPrefixOf ([] : List Char) then Option.some i else Option.none
  | i, gs :: rest =>
    if query.isPrefixOf (gs :: rest).flatten then Option.some i
    else findGo query (i + 1) rest

/-- Modelled from the spec: see `findGo`. -/
def Row.find (r : Row) (query : List Char) (after : Nat) : Option Nat :=
  findGo query after ((graphemes r.string).drop after)

/-- Modelled from the spec: the scanning core of `Row::highlight` (called
by src/document.rs but missing from src/row.rs); per spec §4.2 step 1, a
carry-in means characters are consumed as multiline-comment body until the
closing delimiter; a multiline-comment opener switches to body mode and an
unterminated comment sets the carry-out.  Token classification other than
multiline comments is reduced to plain (`HLType.none`); no claim depends
on it. -/
def hlScan (opts : HighlightingOptions) : Bool → List Char → List HLType × Bool
  | true, '*' :: '/' :: rest =>
    let r := hlScan opts false rest
    (HLType.multilineComment :: HLType.multilineComment :: r.1, r.2)
  | true, _ :: rest =>
    let r := hlScan opts true rest
    (HLType.multilineComment :: r.1, r.2)
  | false, '/' :: '*' :: rest =>
    if opts.multiline_comments then
      let r := hlScan opts true rest
      (HLType.multilineComment :: HLType.multilineComment :: r.1, r.2)
    else
      let r := hlScan opts false rest
      (HLType.none :: HLType.none :: r.1, r.2)
  | false, _ :: rest =>
    let r := hlScan opts false rest
    (HLType.none :: r.1, r.2)
  | inml, [] => ([], inml)

/-- Modelled from the spec: `Row::highlight(opts, word, start_with_comment)
-> carry_out` (missing from src/row.rs); per spec §4.2 a pure function of
(text, search word, carry-in) whose result fully replaces the previous
span data; the search word only adds `Match` spans, which no claim
mentions, so it is not inspected. -/
def Row.highlight (r : Row) (opts : HighlightingOptions)
    (word : Option (List Char)) (start_with_comment : Bool) : Row × Bool :=
  let res := hlScan opts start_with_comment r.string
  ({ r with highlighting := res.1, is_highlighted := true }, res.2)

/-- `Vec`-style point mutation: apply `f` to the element at the index, if
any (`self.rows.get_mut(i).unwrap()` under an in-bounds guard). -/
def listModify {α : Type} (f : α → α) : Nat → List α → List α
  | _, [] => []
  | 0, x :: xs => f x :: xs
  | n + 1, x :: xs => x :: listModify f n xs

/-- `Vec::insert`: insert at the index, shifting the suffix right. -/
def listInsertAt {α : Type} : Nat → α → List α → List α
  | 0, a, xs => a :: xs
  | _ + 1, a, [] => [a]
  | n + 1, a, x :: xs => x :: listInsertAt n a xs

/-- Rust `str::lines`: split on newline, a trailing newline producing no
trailing empty record (carriage returns are not modelled). -/
def linesOf : List Char → List (List Char)
  | [] => []
  | c :: rest =>
    if c = '\n' then [] :: linesOf rest
    else
      match linesOf rest with
      | [] => [[c]]
      | l :: ls => (c :: l) :: ls

/-- The document buffer, from src/document.rs (`Document`). -/
structure Document where
  rows : List Row
  file_name : Option (List Char)
  dirty : Bool
  file_type : FileType
deriving DecidableEq, Repr

def Document.default : Document :=
  { rows := [], file_name := Option.none, dirty := false,
    file_type := FileType.default }

/-- `Document::len`. -/
def Document.len (d : Document) : Nat := d.rows.length

/-- `Document::is_empty`. -/
def Document.isEmptyDoc (d : Document) : Bool := d.rows.isEmpty

/-- `Document::row`. -/
def Document.row (d : Document) (index : Nat) : Option Row := d.rows.get? index

/-- `Document::is_dirty`. -/
def Document.is_dirty (d : Document) : Bool := d.dirty

/-- `Document::file_type` (the name accessor). -/
def Document.file_typeName (d : Document) : List Char := d.file_type.name

/-- `Document::open` on a successful read: one `Row` per newline-delimited
record of the file contents, dirty cleared, file type derived from the
path.  (On a read error the Rust function propagates the I/O error and no
document is built, so the successful contents are a parameter here.) -/
def Document.open (filename : List Char) (contents : List Char) : Document :=
  { rows := (linesOf contents).map Row.fromStr
    file_name := Option.some filename
    dirty := false
    file_type := FileType.ofName filename }

/-- `Document::unhighlight_rows`: clear the highlight flag from one row
before `start` (saturating) to the end. -/
def Document.unhighlight_rows (d : Document) (start : Nat) : Document :=
  let s := start - 1
  { d with rows := d.rows.take s ++
      (d.rows.drop s).map (fun r => { r with is_highlighted := false }) }

/-- `Document::insert_newline`: at `y = len` push an empty row, otherwise
split the current row at the column and insert the remainder after it. -/
def Document.insert_newline (d : Document) (p : Position) : Document :=
  if p.y = d.len then { d with rows := d.rows ++ [Row.default] }
  else
    match d.rows.get? p.y with
    | Option.none => d
    | Option.some current_row =>
      let pr := current_row.split p.x
      { d with rows := listInsertAt (p.y + 1) pr.2 (d.rows.set p.y pr.1) }

/-- `Document::insert`: no-op past the end (`y > len`); otherwise set the
dirty flag, route newline to `insert_newline`, `y = len` to a fresh
one-character row, and anything else to `Row::insert` in place; finally
invalidate highlight state from one row back. -/
def Document.insert (d : Document) (p : Position) (c : Char) : Document :=
  if p.y > d.len then d
  else
    let d1 := { d with dirty := true }
    let d2 :=
      if c = '\n' then d1.insert_newline p
      else if p.y = d1.rows.length then
        { d1 with rows := d1.rows ++ [Row.default.insert 0 c] }
      else
        { d1 with rows := listModify (fun r => r.insert p.x c) p.y d1.rows }
    d2.unhighlight_rows p.y

/-- `Document::delete`: no-op past the end (`y ≥ len`); otherwise set the
dirty flag, then either merge the next row into this one (column at end of
row, not the last row) or `Row::delete` in place; finally invalidate
highlight state from one row back. -/
def Document.delete (d : Document) (p : Position) : Document :=
  let len := d.len
  if p.y ≥ len then d
  else
    let d1 := { d with dirty := true }
    let rowLen := ((d1.rows.get? p.y).getD Row.default).len
    let d2 :=
      if p.x = rowLen ∧ p.y < len - 1 then
        let next_row := (d1.rows.get? (p.y + 1)).getD Row.default
        let removed := d1.rows.eraseIdx (p.y + 1)
        { d1 with rows := listModify (fun r => r.append next_row) p.y removed }
      else
        { d1 with rows := listModify (fun r => r.delete p.x) p.y d1.rows }
    d2.unhighlight_rows p.y

/-- The row loop of `Document::find`: the first row is searched from the
starting column, subsequent ones from 0. -/
def findRows (query : List Char) : Nat → Nat → List Row → Option Position
  | _, _, [] => Option.none
  | x, y, row :: rest =>
    match row.find query x with
    | Option.some fx => Option.some { x := fx, y := y }
    | Option.none => findRows query 0 (y + 1) rest

/-- `Document::find`. -/
def Document.find (d : Document) (query : List Char) (after : Position) :
    Option Position :=
  findRows query after.x after.y (d.rows.drop after.y)

/-- The row loop of `Document::find_all`: for each row in order, the first
in-row occurrence (if any) contributes one position. -/
def findAllGo (query : List Char) : Nat → List Row → List Position
  | _, [] => []
  | y, row :: rest =>
    match row.find query 0 with
    | Option.some x => { x := x, y := y } :: findAllGo query (y + 1) rest
    | Option.none => findAllGo query (y + 1) rest

/-- `Document::find_all`. -/
def Document.find_all (d : Document) (query : List Char) : List Position :=
  findAllGo query 0 d.rows

/-- `Document::unwrap_until`: clamp `until` to the number of rows. -/
def Document.unwrap_until (d : Document) (until_ : Nat) : Nat :=
  if until_ ≤ d.rows.length then until_ else d.rows.length

/-- The row loop of `Document::highlight`: pass each row's carry-out as
the next row's carry-in, starting from `false`. -/
def hlGo (opts : HighlightingOptions) (word : Option (List Char)) :
    Bool → List Row → List Row × Bool
  | swc, [] => ([], swc)
  | swc, r :: rs =>
    let pr := r.highlight opts word swc
    let rest := hlGo opts word pr.2 rs
    (pr.1 :: rest.1, rest.2)

/-- `Document::highlight(word, until)`: re-run the highlighter over the
rows of the slice `rows[..until]` (clamped; all rows when `until` is
`None`), threading the multiline-comment carry. -/
def Document.highlight (d : Document) (word : Option (List Char))
    (until_ : Option Nat) : Document :=
  let u := match until_ with
    | Option.some v => d.unwrap_until v
    | Option.none => d.rows.length
  { d with rows := (hlGo d.file_type.hlopts word false (d.rows.take u)).1 ++
      d.rows.drop u }

/-- The write loop of `Document::save`: each row issues two `write_all`
calls (its bytes, then a newline); `writeOk k` is the outcome of the k-th
call, and a failed call aborts the loop with the error. -/
def saveGo (writeOk : Nat → Bool) : Nat → List Row → Bool × List Char
  | _, [] => (true, [])
  | k, r :: rs =>
    if writeOk k = false then (false, [])
    else if writeOk (k + 1) = false then (false, r.string)
    else
      let rest := saveGo writeOk (k + 2) rs
      (rest.1, r.string ++ '\n' :: rest.2)

/-- Result of a modelled `Document::save`: whether it returned `Ok`, the
document afterwards, and the bytes written to the file. -/
structure SaveOutcome where
  ok : Bool
  doc : Document
  written : List Char
deriving DecidableEq, Repr

/-- `Document::save`, with the file system modelled by oracles: `createOk`
is the outcome of `File::create`, `writeOk k` of the k-th `write_all`.
With no bound file name nothing happens and the result is `Ok`; otherwise
the file type is re-derived from the bound name *before* the writes, every
row is written followed by a newline, and the dirty flag is cleared only
after all writes succeed. -/
def Document.save (d : Document) (createOk : Bool) (writeOk : Nat → Bool) :
    SaveOutcome :=
  match d.file_name with
  | Option.none => { ok := true, doc := d, written := [] }
  | Option.some file_name =>
    if createOk = false then { ok := false, doc := d, written := [] }
    else
      let d1 := { d with file_type := FileType.ofName file_name }
      let res := saveGo writeOk 0 d1.rows
      if res.1 then { ok := true, doc := { d1 with dirty := false }, written := res.2 }
      else { ok := false, doc := d1, written := res.2 }

/-- A concrete one-line dirty document bound to the Rust-typed path
"a.rs" but still carrying the default file type (the name was bound after
load, as the save-as prompt does). -/
def saveDoc : Document :=
  { rows := [Row.fromStr ['x']]
    file_name := Option.some ("a.rs".toList)
    dirty := true
    file_type := FileType.default }

/-- The carry-in that the highlight pass hands to row `i`: the carry-out
of threading the highlighter through rows `[0, i)` starting from
`false`. -/
def carryAt (opts : HighlightingOptions) (word : Option (List Char))
    (rows : List Row) (i : Nat) : Bool :=
  (hlGo opts word false (rows.take i)).2

/-- Terminal dimensions in character cells, from src/terminal.rs (`Size`);
the rendering height already has the two status rows subtracted, so zero
is reachable. -/
structure Size where
  width : Nat
  height : Nat
deriving DecidableEq, Repr

/-- Editor modes, from src/editor.rs (`Mode`). -/
inductive Mode where
  | normal
  | insert
deriving DecidableEq, Repr

/-- The key events from `termion::event::Key` that src/editor.rs
dispatches on. -/
inductive Key where
  | char (c : Char)
  | up
  | down
  | left
  | right
  | backspace
  | del
  | home
  | endKey
  | pageUp
  | pageDown
  | esc
deriving DecidableEq, Repr

/-- Whether a cluster is whitespace (by its leading scalar value). -/
def clusterWhite (g : List Char) : Bool :=
  match g.head? with
  | Option.some c => c.isWhitespace
  | Option.none => false

/-- Whether a cluster is alphabetic (by its leading scalar value). -/
def clusterAlpha (g : List Char) : Bool :=
  match g.head? with
  | Option.some c => c.isAlpha
  | Option.none => false

/-- Modelled from the spec: `Row::peek_white` (called by src/editor.rs but
missing from src/row.rs); per spec §4.4, word-forward motion first skips
from the current column to the end of the current run of non-whitespace
graphemes. -/
def Row.peek_white (r : Row) (x : Nat) : Nat :=
  x + (((graphemes r.string).drop x).takeWhile (fun g => !clusterWhite g)).length

/-- Modelled from the spec: `Row::peek_alpha` (called by src/editor.rs but
missing from src/row.rs); per spec §4.4, after wrapping to the next line
word-forward motion skips the leading non-alphabetic graphemes. -/
def Row.peek_alpha (r : Row) (x : Nat) : Nat :=
  x + (((graphemes r.string).drop x).takeWhile (fun g => !clusterAlpha g)).length

/-- The editor state from src/editor.rs (`Editor`), restricted to the
fields the motion and viewport logic reads: the raw terminal handle and
the wall-clock status message are I/O collaborators outside the
embedding. -/
structure Editor where
  should_quit : Bool
  terminal : Size
  cursor_position : Position
  offset : Position
  document : Document
  mode : Mode
  search_results : List Position
  highlighted_word : Option (List Char)
deriving DecidableEq, Repr

/-- `Editor::scroll`: pure clamping of the viewport offset against the
cursor (`saturating_sub` on `usize` is truncated subtraction, which `Nat`
subtraction models; the saturating additions cannot overflow in the
model). -/
def Editor.scroll (e : Editor) : Editor :=
  let x := e.cursor_position.x
  let y := e.cursor_position.y
  let width := e.terminal.width
  let height := e.terminal.height
  let oy :=
    if y < e.offset.y then y
    else if y ≥ e.offset.y + height then y - height + 1
    else e.offset.y
  let ox :=
    if x < e.offset.x then x
    else if x ≥ e.offset.x + width then x - width + 1
    else e.offset.x
  { e with offset := { x := ox, y := oy } }

/-- `Editor::move_cursor`: the motion dispatch.  The result is `none`
exactly when the Rust code panics: the word-forward arm calls
`self.document.row(y).unwrap()`, which panics when row `y` does not
exist.  Every other arm is total; the final clamp re-bounds the column
against the resulting row. -/
def Editor.move_cursor (e : Editor) (key : Key) : Option Editor :=
  let terminal_height := e.terminal.height
  let y0 := e.cursor_position.y
  let x0 := e.cursor_position.x
  let height := e.document.len
  let width :=
    match e.document.row y0 with
    | Option.some row => row.len
    | Option.none => 0
  let newpos : Option (Nat × Nat) :=
    match key with
    | Key.char c =>
      if c = 'w' then
        match e.document.row y0 with
        | Option.none => Option.none
        | Option.some row =>
          let new_idx := row.peek_white x0
          if new_idx > 0 then Option.some (new_idx, y0)
          else
            match e.document.row (y0 + 1) with
            | Option.some row2 => Option.some (row2.peek_alpha 0, y0 + 1)
            | Option.none => Option.some (x0, y0)
      else Option.some (x0, y0)
    | Key.up => Option.some (x0, y0 - 1)
    | Key.down => Option.some (x0, if y0 < height then y0 + 1 else y0)
    | Key.left => Option.some (x0 - 1, y0)
    | Key.backspace =>
      if x0 > 0 then Option.some (x0 - 1, y0)
      else if y0 > 0 then
        match e.document.row (y0 - 1) with
        | Option.some row => Option.some (row.len, y0 - 1)
        | Option.none => Option.some (0, y0 - 1)
      else Option.some (x0, y0)
    | Key.right => Option.some (if x0 < width then x0 + 1 else x0, y0)
    | Key.pageUp =>
      Option.some (x0, if y0 > terminal_height then y0 - terminal_height else 0)
    | Key.pageDown =>
      Option.some (x0,
        if y0 + terminal_height < height then y0 + terminal_height else height)
    | Key.home => Option.some (0, y0)
    | Key.endKey => Option.some (width, y0)
    | _ => Option.some (x0, y0)
  match newpos with
  | Option.none => Option.none
  | Option.some (x1, y1) =>
    let width2 :=
      match e.document.row y1 with
      | Option.some row => row.len
      | Option.none => 0
    let x2 := if x1 > width2 then width2 else x1
    Option.some { e with cursor_position := { x := x2, y := y1 } }

/-- A concrete editor whose cursor is outside the current viewport in both
axes. -/
def scrollEditor : Editor :=
  { should_quit := false
    terminal := { width := 2, height := 2 }
    cursor_position := { x := 3, y := 5 }
    offset := { x := 0, y := 0 }
    document := Document.default
    mode := Mode.normal
    search_results := []
    highlighted_word := Option.none }

/-- An editor with a one-line, one-column buffer but a zero-height
terminal (reachable: `Terminal::default` subtracts 2 from the reported
height). -/
def zeroHeightEditor : Editor :=
  { should_quit := false
    terminal := { width := 1, height := 0 }
    cursor_position := { x := 0, y := 0 }
    offset := { x := 0, y := 0 }
    document := Document.open "t".toList "a".toList
    mode := Mode.normal
    search_results := []
    highlighted_word := Option.none }

/-- An editor over the empty buffer (as started with no file argument),
cursor at the origin — a reachable state where the cursor row equals the
buffer length. -/
def emptyBufEditor : Editor :=
  { should_quit := false
    terminal := { width := 10, height := 10 }
    cursor_position := { x := 0, y := 0 }
    offset := { x := 0, y := 0 }
    document := Document.default
    mode := Mode.normal
    search_results := []
    highlighted_word := Option.none }

theorem dropWhile_length_le {α : Type} (p : α → Bool) (l : List α) :
    (l.dropWhile p).length ≤ l.length := by
  induction l with
  | nil => simp [List.dropWhile]
  | cons a l ih =>
    by_cases h : p a
    · simp only [List.dropWhile_cons, h, if_true]
      exact Nat.le_succ_of_le ih
    · simp [List.dropWhile_cons, h]

/-- Span form of the segmentation: the first cluster is the head together
with the following maximal combining run, and the rest is the segmentation
of what remains. -/
theorem graphemes_cons_eq (c : Char) (rest : List Char) :
    graphemes (c :: rest) =
      match rest.head? with
      | Option.none => [[c]]
      | Option.some d =>
        if isCombining d then
          match graphemes rest with
          | [] => [[c]]
          | g :: gs => (c :: g) :: gs
        else [c] :: graphemes rest := rfl

/-- Span form of the segmentation: the first cluster is the head together
with the following maximal combining run, and the rest is the segmentation
of what remains. -/
theorem graphemes_cons (c : Char) (rest : List Char) :
    graphemes (c :: rest) =
      (c :: rest.takeWhile isCombining) :: graphemes (rest.dropWhile isCombining) := by
  induction rest generalizing c with
  | nil => simp [graphemes]
  | cons d rest' ih =>
    rw [graphemes_cons_eq]
    simp only [List.head?_cons]
    by_cases hd : isCombining d
    · rw [if_pos hd, ih d]
      simp [List.takeWhile_cons, List.dropWhile_cons, hd]
    · rw [if_neg hd]
      simp [List.takeWhile_cons, List.dropWhile_cons, hd]

/-- Segmentation partitions the text: concatenating the clusters gives the
text back. -/
theorem graphemes_flatten : ∀ (l : List Char), (graphemes l).flatten = l
  | [] => by simp [graphemes]
  | c :: rest => by
    rw [graphemes_cons]
    have ih := graphemes_flatten (rest.dropWhile isCombining)
    simp [ih, List.takeWhile_append_dropWhile]
termination_by l => l.length
decreasing_by
  simp only [List.length_cons]
  exact Nat.lt_succ_of_le (dropWhile_length_le _ _)

theorem takeWhile_append_nc (s t : List Char) (ht : headNC t = true) :
    (s ++ t).takeWhile isCombining = s.takeWhile isCombining := by
  induction s with
  | nil =>
    cases t with
    | nil => simp
    | cons d t' =>
      simp only [headNC, List.head?_cons, Bool.not_eq_true'] at ht
      simp [List.takeWhile_cons, ht]
  | cons a s' ih =>
    by_cases ha : isCombining a <;> simp [List.takeWhile_cons, ha, ih]

theorem dropWhile_append_nc (s t : List Char) (ht : headNC t = true) :
    (s ++ t).dropWhile isCombining = s.dropWhile isCombining ++ t := by
  induction s with
  | nil =>
    cases t with
    | nil => simp
    | cons d t' =>
      simp only [headNC, List.head?_cons, Bool.not_eq_true'] at ht
      simp [List.dropWhile_cons, ht]
  | cons a s' ih =>
    by_cases ha : isCombining a <;> simp [List.dropWhile_cons, ha, ih]

/-- Segmentation distributes over an append whose right part starts a new
cluster. -/
theorem graphemes_append : ∀ (s t : List Char), headNC t = true →
    graphemes (s ++ t) = graphemes s ++ graphemes t
  | [], t, _ => by simp [graphemes]
  | c :: s', t, ht => by
    rw [List.cons_append, graphemes_cons, graphemes_cons,
      takeWhile_append_nc s' t ht, dropWhile_append_nc s' t ht,
      graphemes_append (s'.dropWhile isCombining) t ht]
    simp
termination_by s _ _ => s.length
decreasing_by
  simp only [List.length_cons]
  exact Nat.lt_succ_of_le (dropWhile_length_le _ _)

theorem takeWhile_all {α : Type} {p : α → Bool} {t : List α}
    (h : ∀ x ∈ t, p x = true) : t.takeWhile p = t := by
  induction t with
  | nil => rfl
  | cons a t ih =>
    rw [List.takeWhile_cons, if_pos (h a (by simp))]
    rw [ih fun x hx => h x (by simp [hx])]

theorem dropWhile_all {α : Type} {p : α → Bool} {t : List α}
    (h : ∀ x ∈ t, p x = true) : t.dropWhile p = [] := by
  induction t with
  | nil => rfl
  | cons a t ih =>
    rw [List.dropWhile_cons, if_pos (h a (by simp))]
    exact ih fun x hx => h x (by simp [hx])

/-- Every cluster produced by segmentation is well formed. -/
theorem graphemes_valid : ∀ (l : List Char), ∀ g ∈ graphemes l, validCluster g = true
  | [] => by simp [graphemes]
  | c :: rest => by
    rw [graphemes_cons]
    intro g hg
    rcases List.mem_cons.mp hg with h | h
    · subst h
      simp only [validCluster, List.all_eq_true]
      intro x hx
      exact List.mem_takeWhile_imp hx
    · exact graphemes_valid (rest.dropWhile isCombining) g h
termination_by l => l.length
decreasing_by
  simp only [List.length_cons]
  exact Nat.lt_succ_of_le (dropWhile_length_le _ _)

theorem headNC_dropWhile (l : List Char) : headNC (l.dropWhile isCombining) = true := by
  induction l with
  | nil => simp [headNC]
  | cons a l ih =>
    by_cases ha : isCombining a
    · simpa [List.dropWhile_cons, ha] using ih
    · simp [List.dropWhile_cons, ha, headNC]

/-- If the text starts a fresh cluster, so does every one of its
clusters. -/
theorem graphemes_headNC : ∀ (l : List Char), headNC l = true →
    ∀ g ∈ graphemes l, headNC g = true
  | [] => by simp [graphemes]
  | c :: rest => by
    intro hl g hg
    rw [graphemes_cons] at hg
    rcases List.mem_cons.mp hg with h | h
    · subst h
      simpa [headNC] using hl
    · exact graphemes_headNC (rest.dropWhile isCombining) (headNC_dropWhile rest) g h
termination_by l => l.length
decreasing_by
  simp only [List.length_cons]
  exact Nat.lt_succ_of_le (dropWhile_length_le _ _)

/-- Every cluster after the first starts with a non-combining character. -/
theorem graphemes_tail_headNC (l : List Char) :
    ∀ g ∈ (graphemes l).tail, headNC g = true := by
  cases l with
  | nil => simp [graphemes]
  | cons c rest =>
    rw [graphemes_cons]
    simpa using graphemes_headNC (rest.dropWhile isCombining) (headNC_dropWhile rest)

theorem headNC_flatten (gs : List (List Char)) (hv : ∀ g ∈ gs, validCluster g = true)
    (h : ∀ g ∈ gs, headNC g = true) : headNC gs.flatten = true := by
  cases gs with
  | nil => simp [headNC]
  | cons g rest =>
    have hg := hv g (by simp)
    have hh := h g (by simp)
    cases g with
    | nil => simp [validCluster] at hg
    | cons a t =>
      rw [List.flatten_cons, List.cons_append]
      simpa [headNC] using hh

/-- Re-segmentation: flattening a well-formed cluster list (every cluster
after the first starting non-combining) and segmenting again recovers the
same clusters. -/
theorem graphemes_flatten_of : ∀ (gs : List (List Char)),
    (∀ g ∈ gs, validCluster g = true) → (∀ g ∈ gs.tail, headNC g = true) →
    graphemes gs.flatten = gs := by
  intro gs
  induction gs with
  | nil => intro _ _; simp [graphemes]
  | cons g rest ih =>
    intro hv hnc
    simp only [List.tail_cons] at hnc
    obtain ⟨a, t, rfl⟩ : ∃ a t, g = a :: t := by
      have hg := hv g (by simp)
      cases g with
      | nil => simp [validCluster] at hg
      | cons a t => exact ⟨a, t, rfl⟩
    have htcomb : ∀ x ∈ t, isCombining x = true := by
      have hg := hv (a :: t) (by simp)
      simpa [validCluster, List.all_eq_true] using hg
    have hncflat : headNC rest.flatten = true :=
      headNC_flatten rest (fun g hg => hv g (by simp [hg])) hnc
    rw [List.flatten_cons, List.cons_append, graphemes_cons,
      takeWhile_append_nc t _ hncflat, takeWhile_all htcomb,
      dropWhile_append_nc t _ hncflat, dropWhile_all htcomb,
      List.nil_append,
      ih (fun g hg => hv g (by simp [hg])) (fun g hg => hnc g (List.mem_of_mem_tail hg))]

theorem insertLoop_past (at_ : Nat) (c : Char) :
    ∀ (gs : List (List Char)) (idx : Nat), at_ < idx →
      insertLoop at_ c idx gs = (gs.flatten, gs.length) := by
  intro gs
  induction gs with
  | nil => intro idx _; simp [insertLoop]
  | cons g gs ih =>
    intro idx h
    have hne : idx ≠ at_ := by omega
    simp only [insertLoop, ih (idx + 1) (by omega)]
    rw [if_neg hne]
    simp

theorem insertLoop_spec (at_ : Nat) (c : Char) :
    ∀ (gs : List (List Char)) (idx : Nat), idx ≤ at_ →
      insertLoop at_ c idx gs =
        if at_ - idx < gs.length then
          ((gs.take (at_ - idx)).flatten ++ c :: (gs.drop (at_ - idx)).flatten,
            gs.length + 1)
        else (gs.flatten, gs.length) := by
  intro gs
  induction gs with
  | nil => intro idx _; simp [insertLoop]
  | cons g gs ih =>
    intro idx h
    by_cases he : idx = at_
    · have h0 : at_ - idx = 0 := by omega
      simp only [insertLoop, insertLoop_past at_ c gs (idx + 1) (by omega)]
      rw [if_pos he, if_pos (by simp [h0])]
      simp [h0]
    · have h1 : idx + 1 ≤ at_ := by omega
      have hk : at_ - idx = (at_ - (idx + 1)) + 1 := by omega
      simp only [insertLoop, ih (idx + 1) h1]
      rw [if_neg he]
      by_cases h2 : at_ - (idx + 1) < gs.length
      · rw [if_pos h2, if_pos (by simp [hk]; omega)]
        rw [hk, List.take_succ_cons, List.drop_succ_cons]
        simp
      · rw [if_neg h2, if_neg (by simp [hk]; omega)]
        simp

theorem deleteLoop_past (at_ : Nat) :
    ∀ (gs : List (List Char)) (idx : Nat), at_ < idx →
      deleteLoop at_ idx gs = (gs.flatten, gs.length) := by
  intro gs
  induction gs with
  | nil => intro idx _; simp [deleteLoop]
  | cons g gs ih =>
    intro idx h
    have hne : idx ≠ at_ := by omega
    simp only [deleteLoop, ih (idx + 1) (by omega)]
    rw [if_pos hne]
    simp

theorem deleteLoop_spec (at_ : Nat) :
    ∀ (gs : List (List Char)) (idx : Nat), idx ≤ at_ →
      deleteLoop at_ idx gs =
        if at_ - idx < gs.length then
          ((gs.take (at_ - idx)).flatten ++ (gs.drop (at_ - idx + 1)).flatten,
            gs.length - 1)
        else (gs.flatten, gs.length) := by
  intro gs
  induction gs with
  | nil => intro idx _; simp [deleteLoop]
  | cons g gs ih =>
    intro idx h
    by_cases he : idx = at_
    · have h0 : at_ - idx = 0 := by omega
      simp only [deleteLoop, deleteLoop_past at_ gs (idx + 1) (by omega)]
      rw [if_neg (by simp [he]), if_pos (by simp [h0])]
      simp [h0]
    · have h1 : idx + 1 ≤ at_ := by omega
      have hk : at_ - idx = (at_ - (idx + 1)) + 1 := by omega
      simp only [deleteLoop, ih (idx + 1) h1]
      rw [if_pos he]
      by_cases h2 : at_ - (idx + 1) < gs.length
      · rw [if_pos h2, if_pos (by simp [hk]; omega)]
        rw [hk, List.take_succ_cons]
        simp only [List.flatten_cons, List.drop_succ_cons, List.length_cons,
          List.append_assoc, Prod.mk.injEq]
        exact ⟨trivial, by omega⟩
      · rw [if_neg h2, if_neg (by simp [hk]; omega)]
        simp

theorem splitLoop_ge (at_ : Nat) :
    ∀ (gs : List (List Char)) (idx : Nat), at_ ≤ idx →
      splitLoop at_ idx gs = ([], 0, gs.flatten, gs.length) := by
  intro gs
  induction gs with
  | nil => intro idx _; simp [splitLoop]
  | cons g gs ih =>
    intro idx h
    have hn : ¬idx < at_ := by omega
    simp only [splitLoop, ih (idx + 1) (by omega)]
    rw [if_neg hn]
    simp

theorem splitLoop_spec (at_ : Nat) :
    ∀ (gs : List (List Char)) (idx : Nat), idx ≤ at_ →
      splitLoop at_ idx gs =
        ((gs.take (at_ - idx)).flatten, (gs.take (at_ - idx)).length,
         (gs.drop (at_ - idx)).flatten, (gs.drop (at_ - idx)).length) := by
  intro gs
  induction gs with
  | nil => intro idx _; simp [splitLoop]
  | cons g gs ih =>
    intro idx h
    by_cases he : idx = at_
    · have h0 : at_ - idx = 0 := by omega
      rw [splitLoop_ge at_ (g :: gs) idx (by omega)]
      simp [h0]
    · have h1 : idx + 1 ≤ at_ := by omega
      have hk : at_ - idx = (at_ - (idx + 1)) + 1 := by omega
      simp only [splitLoop, ih (idx + 1) h1]
      rw [if_pos (by omega)]
      rw [hk, List.take_succ_cons, List.drop_succ_cons]
      simp

theorem tail_headNC_take (gs : List (List Char))
    (h : ∀ g ∈ gs.tail, headNC g = true) (n : Nat) :
    ∀ g ∈ (gs.take n).tail, headNC g = true := by
  cases gs with
  | nil => simp
  | cons g0 rest =>
    cases n with
    | zero => simp
    | succ n =>
      rw [List.take_succ_cons]
      simp only [List.tail_cons] at h ⊢
      exact fun g hg => h g (List.take_subset n rest hg)

theorem tail_headNC_drop (gs : List (List Char))
    (h : ∀ g ∈ gs.tail, headNC g = true) (n : Nat) :
    ∀ g ∈ (gs.drop n).tail, headNC g = true := by
  intro g hg
  rw [List.tail_drop] at hg
  refine h g ?_
  have hsub : gs.drop (n + 1) ⊆ gs.drop 1 := List.drop_subset_drop_left gs (by omega)
  rw [List.drop_one] at hsub
  exact hsub hg

theorem headNC_drop_of_pos (gs : List (List Char))
    (h : ∀ g ∈ gs.tail, headNC g = true) (n : Nat) (hn : 1 ≤ n) :
    ∀ g ∈ gs.drop n, headNC g = true := by
  intro g hg
  refine h g ?_
  have hsub : gs.drop n ⊆ gs.drop 1 := List.drop_subset_drop_left gs hn
  rw [List.drop_one] at hsub
  exact hsub hg

theorem tail_headNC_erase (gs : List (List Char))
    (h : ∀ g ∈ gs.tail, headNC g = true) (n : Nat) :
    ∀ g ∈ (gs.take n ++ gs.drop (n + 1)).tail, headNC g = true := by
  cases gs with
  | nil => simp
  | cons g0 rest =>
    cases n with
    | zero =>
      simpa using tail_headNC_drop (g0 :: rest) h 1
    | succ n =>
      rw [List.take_succ_cons, List.drop_succ_cons, List.cons_append]
      simp only [List.tail_cons] at h ⊢
      intro g hg
      rcases List.mem_append.mp hg with hg | hg
      · exact h g (List.take_subset n rest hg)
      · exact h g (List.drop_subset (n + 1) rest hg)

/-- Under no-merge conditions, inserting `c` at cluster position
`at_ ≤ len` produces the cluster list with `[c]` inserted at index `at_`,
and the cached count goes up by one. -/
theorem Row.insert_spec (r : Row) (at_ : Nat) (c : Char) (hr : rowInv r)
    (hc : isCombining c = false) (hh : headNC r.string = true) (hle : at_ ≤ r.len) :
    graphemes (r.insert at_ c).string =
      (graphemes r.string).take at_ ++ [c] :: (graphemes r.string).drop at_ ∧
    (r.insert at_ c).len = r.len + 1 := by
  have hr' : r.len = (graphemes r.string).length := hr
  have hsingle : graphemes [c] = [[c]] := rfl
  have hcNC : headNC [c] = true := by simp [headNC, hc]
  by_cases hge : at_ ≥ r.len
  · have hat : at_ = r.len := by omega
    have htake : (graphemes r.string).take at_ = graphemes r.string := by
      rw [List.take_of_length_le]
      rw [← hr, hat]
    have hdrop : (graphemes r.string).drop at_ = [] := by
      rw [List.drop_eq_nil_of_le]
      rw [← hr, hat]
    rw [Row.insert, if_pos hge]
    refine ⟨?_, rfl⟩
    simp only [htake, hdrop]
    rw [graphemes_append r.string [c] hcNC, hsingle]
  · have hlt : at_ < (graphemes r.string).length := by omega
    rw [Row.insert, if_neg hge]
    rw [insertLoop_spec at_ c (graphemes r.string) 0 (by omega)]
    simp only [Nat.sub_zero]
    rw [if_pos hlt]
    set gs := graphemes r.string with hgs
    have hvalid := graphemes_valid r.string
    have htail := graphemes_tail_headNC r.string
    have hBflatNC : headNC (gs.drop at_).flatten = true := by
      cases Nat.eq_zero_or_pos at_ with
      | inl h0 =>
        rw [h0, List.drop_zero, hgs, graphemes_flatten]
        exact hh
      | inr hpos =>
        exact headNC_flatten _ (fun g hg => hvalid g (List.drop_subset at_ gs hg))
          (headNC_drop_of_pos gs htail at_ hpos)
    have hconsNC : headNC (c :: (gs.drop at_).flatten) = true := by
      simp [headNC, hc]
    constructor
    · rw [graphemes_append _ _ hconsNC]
      rw [graphemes_flatten_of (gs.take at_)
        (fun g hg => hvalid g (List.take_subset at_ gs hg))
        (tail_headNC_take gs htail at_)]
      rw [show c :: (gs.drop at_).flatten = [c] ++ (gs.drop at_).flatten from rfl]
      rw [graphemes_append [c] _ hBflatNC, hsingle]
      rw [graphemes_flatten_of (gs.drop at_)
        (fun g hg => hvalid g (List.drop_subset at_ gs hg))
        (tail_headNC_drop gs htail at_)]
      simp
    · omega

/-- `delete` preserves the cache invariant (the loop recounts what it
keeps, and removing a whole cluster cannot merge its neighbours). -/
theorem rowInv_delete (r : Row) (at_ : Nat) (hr : rowInv r) :
    rowInv (r.delete at_) := by
  have hr' : r.len = (graphemes r.string).length := hr
  by_cases hge : at_ ≥ r.len
  · rw [Row.delete, if_pos hge]; exact hr
  · have hlt : at_ < (graphemes r.string).length := by omega
    rw [Row.delete, if_neg hge]
    rw [deleteLoop_spec at_ (graphemes r.string) 0 (by omega)]
    simp only [Nat.sub_zero]
    rw [if_pos hlt]
    set gs := graphemes r.string with hgs
    have hvalid := graphemes_valid r.string
    have htail := graphemes_tail_headNC r.string
    show (gs.length - 1) = _
    rw [← List.flatten_append]
    rw [graphemes_flatten_of (gs.take at_ ++ gs.drop (at_ + 1))
      (fun g hg => by
        rcases List.mem_append.mp hg with h | h
        · exact hvalid g (List.take_subset at_ gs h)
        · exact hvalid g (List.drop_subset (at_ + 1) gs h))
      (tail_headNC_erase gs htail at_)]
    simp only [List.length_append, List.length_take, List.length_drop]
    omega

/-- `split` recounts both halves from the walked clusters, so both results
satisfy the cache invariant unconditionally; the halves are the cluster
lists `take at_` and `drop at_`. -/
theorem Row.split_spec (r : Row) (at_ : Nat) :
    (r.split at_).1.string = ((graphemes r.string).take at_).flatten ∧
    (r.split at_).1.len = ((graphemes r.string).take at_).length ∧
    (r.split at_).2.string = ((graphemes r.string).drop at_).flatten ∧
    (r.split at_).2.len = ((graphemes r.string).drop at_).length := by
  rw [Row.split, splitLoop_spec at_ (graphemes r.string) 0 (by omega)]
  simp

theorem rowInv_split (r : Row) (at_ : Nat) :
    rowInv (r.split at_).1 ∧ rowInv (r.split at_).2 := by
  obtain ⟨h1, h2, h3, h4⟩ := Row.split_spec r at_
  have hvalid := graphemes_valid r.string
  have htail := graphemes_tail_headNC r.string
  constructor
  · show (r.split at_).1.len = _
    rw [h1, h2]
    rw [graphemes_flatten_of ((graphemes r.string).take at_)
      (fun g hg => hvalid g (List.take_subset at_ _ hg))
      (tail_headNC_take _ htail at_)]
  · show (r.split at_).2.len = _
    rw [h3, h4]
    rw [graphemes_flatten_of ((graphemes r.string).drop at_)
      (fun g hg => hvalid g (List.drop_subset at_ _ hg))
      (tail_headNC_drop _ htail at_)]

/-- `append` preserves the cache invariant when the appended content does
not begin with a combining mark (no cluster merges across the seam). -/
theorem rowInv_append (r o : Row) (hr : rowInv r) (ho : rowInv o)
    (hho : headNC o.string = true) : rowInv (r.append o) := by
  show r.len + o.len = (graphemes (r.string ++ o.string)).length
  rw [graphemes_append _ _ hho, List.length_append, hr, ho]

/-- `insert` preserves the cache invariant provided the inserted character
does not merge with adjacent content (it is not a combining mark and the
content does not begin with one). -/
theorem rowInv_insert (r : Row) (at_ : Nat) (c : Char) (hr : rowInv r)
    (hc : isCombining c = false) (hh : headNC r.string = true) :
    rowInv (r.insert at_ c) := by
  have hr' : r.len = (graphemes r.string).length := hr
  by_cases hge : at_ ≥ r.len
  · have hcNC : headNC [c] = true := by simp [headNC, hc]
    show (r.insert at_ c).len = (graphemes (r.insert at_ c).string).length
    rw [Row.insert, if_pos hge]
    show r.len + 1 = (graphemes (r.string ++ [c])).length
    rw [graphemes_append _ _ hcNC, show graphemes [c] = [[c]] from rfl,
      List.length_append, hr']
    simp
  · obtain ⟨hstr, hlen⟩ := Row.insert_spec r at_ c hr hc hh (by omega)
    show (r.insert at_ c).len = (graphemes (r.insert at_ c).string).length
    rw [hlen, hstr]
    simp only [List.length_append, List.length_cons, List.length_take,
      List.length_drop]
    omega

/-- Inserting at `at_ ≤ len` and then deleting at the same position
restores both text and cached count, under the no-merge conditions. -/
theorem row_insert_delete_id (r : Row) (at_ : Nat) (c : Char) (hr : rowInv r)
    (hle : at_ ≤ r.len) (hc : isCombining c = false) (hh : headNC r.string = true) :
    ((r.insert at_ c).delete at_).string = r.string ∧
    ((r.insert at_ c).delete at_).len = r.len := by
  have hr' : r.len = (graphemes r.string).length := hr
  obtain ⟨hstr, hlen⟩ := Row.insert_spec r at_ c hr hc hh hle
  set gs := graphemes r.string with hgs
  have hA : (gs.take at_).length = at_ := by
    rw [List.length_take]; omega
  have htake : ((gs.take at_ ++ [c] :: gs.drop at_).take at_) = gs.take at_ :=
    List.take_left' hA
  have hdrop : ((gs.take at_ ++ [c] :: gs.drop at_).drop (at_ + 1)) = gs.drop at_ := by
    rw [show gs.take at_ ++ [c] :: gs.drop at_
          = (gs.take at_ ++ [[c]]) ++ gs.drop at_ by simp]
    exact List.drop_left' (by simp [hA])
  have hcond : ¬at_ ≥ (r.insert at_ c).len := by omega
  rw [Row.delete, if_neg hcond, hstr]
  rw [deleteLoop_spec at_ _ 0 (by omega)]
  rw [if_pos (by simp only [Nat.sub_zero, List.length_append, List.length_cons]; omega)]
  simp only [Nat.sub_zero]
  constructor
  · show ((gs.take at_ ++ [c] :: gs.drop at_).take at_).flatten ++
        ((gs.take at_ ++ [c] :: gs.drop at_).drop (at_ + 1)).flatten = r.string
    rw [htake, hdrop, ← List.flatten_append, List.take_append_drop, hgs,
      graphemes_flatten]
  · show (gs.take at_ ++ [c] :: gs.drop at_).length - 1 = r.len
    simp only [List.length_append, List.length_cons, List.length_take,
      List.length_drop]
    omega

/-- C1 (amended): after `delete` and `split` the cached count always equals
the grapheme count of the result; after `insert` and `append` it does
provided the inserted character / appended content does not merge with
adjacent content into a single cluster (inserted character not a combining
mark, content at the seam not beginning with one). -/
theorem claim_C1_amended (r o : Row) (at_ : Nat) (c : Char) :
    (rowInv r → rowInv (r.delete at_)) ∧
    (rowInv (r.split at_).1 ∧ rowInv (r.split at_).2) ∧
    (rowInv r → isCombining c = false → headNC r.string = true →
      rowInv (r.insert at_ c)) ∧
    (rowInv r → rowInv o → headNC o.string = true → rowInv (r.append o)) :=
  ⟨fun hr => rowInv_delete r at_ hr,
   rowInv_split r at_,
   fun hr hc hh => rowInv_insert r at_ c hr hc hh,
   fun hr ho hho => rowInv_append r o hr ho hho⟩

/-- C1 witness: the amended statement applied at concrete inputs. -/
theorem claim_C1_witness :
    rowInv ((Row.fromStr ['a', 'b']).delete 1) ∧
    rowInv (((Row.fromStr ['a', 'b']).split 1).1) ∧
    rowInv (((Row.fromStr ['a', 'b']).split 1).2) ∧
    rowInv ((Row.fromStr ['a', 'b']).insert 1 'z') ∧
    rowInv ((Row.fromStr ['a', 'b']).append (Row.fromStr ['c'])) := by
  obtain ⟨h1, ⟨h2a, h2b⟩, h3, h4⟩ :=
    claim_C1_amended (Row.fromStr ['a', 'b']) (Row.fromStr ['c']) 1 'z'
  exact ⟨h1 (by decide), h2a, h2b, h3 (by decide) (by decide) (by decide),
    h4 (by decide) (by decide) (by decide)⟩

/-- C1 counterexample: inserting the combining mark U+0301 at the end of
the line "e" leaves the cached count at 2 although the resulting content
"é" is a single extended grapheme cluster. -/
theorem claim_C1_counterexample :
    ((Row.fromStr ['e']).insert 1 (Char.ofNat 0x301)).len ≠
      (graphemes ((Row.fromStr ['e']).insert 1 (Char.ofNat 0x301)).string).length := by
  decide

/-- C2 (amended): for a line whose cache is accurate (as produced by the
constructor) and whose content contains a multi-codepoint cluster,
`insert` then `delete` at the same position `at_ ≤ len` is an identity on
content and count, provided the inserted character does not merge with
adjacent content (not a combining mark, content not beginning with one). -/
theorem claim_C2_amended (r : Row) (at_ : Nat) (c : Char)
    (hmc : ∃ g ∈ graphemes r.string, 2 ≤ g.length)
    (hr : rowInv r) (hle : at_ ≤ r.len)
    (hc : isCombining c = false) (hh : headNC r.string = true) :
    ((r.insert at_ c).delete at_).string = r.string ∧
    ((r.insert at_ c).delete at_).len = r.len :=
  row_insert_delete_id r at_ c hr hle hc hh

/-- C2 witness: the amended statement applied at a concrete line containing
the two-codepoint cluster "é". -/
theorem claim_C2_witness :
    (((Row.fromStr ['e', Char.ofNat 0x301, 'b']).insert 1 'z').delete 1).string =
      (Row.fromStr ['e', Char.ofNat 0x301, 'b']).string ∧
    (((Row.fromStr ['e', Char.ofNat 0x301, 'b']).insert 1 'z').delete 1).len =
      (Row.fromStr ['e', Char.ofNat 0x301, 'b']).len := by
  exact claim_C2_amended (Row.fromStr ['e', Char.ofNat 0x301, 'b']) 1 'z'
    (by decide) (by decide) (by decide) (by decide) (by decide)

/-- C2 counterexample: on the line "é" (which contains a
multi-codepoint cluster), `insert(5, 'b')` appends past the end and the
following `delete(5)` is a no-op, so the pair is not an identity on
content. -/
theorem claim_C2_counterexample :
    (∃ g ∈ graphemes (Row.fromStr ['e', Char.ofNat 0x301]).string, 2 ≤ g.length) ∧
    ¬(((Row.fromStr ['e', Char.ofNat 0x301]).insert 5 'b').delete 5).string =
        (Row.fromStr ['e', Char.ofNat 0x301]).string := by
  decide

/-- C8: for every split point `at_ ≤ len`, `split` followed by `append`
reconstructs the original line's text exactly. -/
theorem claim_C8 (r : Row) (at_ : Nat) (hle : at_ ≤ r.len) :
    ((r.split at_).1.append (r.split at_).2).string = r.string := by
  obtain ⟨h1, _, h3, _⟩ := Row.split_spec r at_
  show (r.split at_).1.string ++ (r.split at_).2.string = r.string
  rw [h1, h3, ← List.flatten_append, List.take_append_drop, graphemes_flatten]

/-- C8 witness: the split/append round trip at a concrete line and split
point. -/
theorem claim_C8_witness :
    1 ≤ (Row.fromStr ['a', 'b']).len ∧
    (((Row.fromStr ['a', 'b']).split 1).1.append
        ((Row.fromStr ['a', 'b']).split 1).2).string =
      (Row.fromStr ['a', 'b']).string :=
  ⟨by decide, claim_C8 (Row.fromStr ['a', 'b']) 1 (by decide)⟩

theorem unhighlight_dirty (d : Document) (s : Nat) :
    (d.unhighlight_rows s).dirty = d.dirty := rfl

/-- Any in-bounds `insert` sets the dirty flag, whatever else it does. -/
theorem insert_dirty_of_inbounds (d : Document) (p : Position) (c : Char)
    (h : ¬p.y > d.len) : (d.insert p c).dirty = true := by
  rw [Document.insert, if_neg h, unhighlight_dirty]
  by_cases hc : c = '\n'
  · rw [if_pos hc, Document.insert_newline]
    by_cases hy : p.y = Document.len { d with dirty := true }
    · rw [if_pos hy]
    · rw [if_neg hy]
      cases ({ d with dirty := true } : Document).rows.get? p.y <;> rfl
  · rw [if_neg hc]
    by_cases hy : p.y = ({ d with dirty := true } : Document).rows.length
    · rw [if_pos hy]
    · rw [if_neg hy]

/-- Any in-bounds `delete` sets the dirty flag, whatever else it does. -/
theorem delete_dirty_of_inbounds (d : Document) (p : Position)
    (h : ¬p.y ≥ d.len) : (d.delete p).dirty = true := by
  simp only [Document.delete]
  rw [if_neg h, unhighlight_dirty]
  by_cases hm : p.x = ((d.rows.get? p.y).getD Row.default).len ∧ p.y < d.len - 1
  · rw [if_pos hm]
  · rw [if_neg hm]

/-- C6 (amended): an `insert` or `delete` whose position row is in bounds
always sets the dirty flag, even when it leaves the content unchanged;
conversely, whenever the dirty flag is false after the operation, the
operation changed nothing and the flag was already false (so a clean
buffer's content really is the content at the last save/load). -/
theorem claim_C6_amended (d : Document) (p q : Position) (c : Char) :
    ((d.insert p c).dirty = false → (d.insert p c).rows = d.rows ∧ d.dirty = false) ∧
    ((d.delete q).dirty = false → (d.delete q).rows = d.rows ∧ d.dirty = false) := by
  constructor
  · intro hdirty
    by_cases hy : p.y > d.len
    · have hid : d.insert p c = d := by rw [Document.insert, if_pos hy]
      rw [hid] at hdirty ⊢
      exact ⟨rfl, hdirty⟩
    · rw [insert_dirty_of_inbounds d p c hy] at hdirty
      cases hdirty
  · intro hdirty
    by_cases hy : q.y ≥ d.len
    · have hid : d.delete q = d := by
        simp only [Document.delete]
        rw [if_pos hy]
      rw [hid] at hdirty ⊢
      exact ⟨rfl, hdirty⟩
    · rw [delete_dirty_of_inbounds d q hy] at hdirty
      cases hdirty

/-- C6 witness: the amended statement applied at a freshly loaded one-line
document and an out-of-bounds insert (row 5 of a 1-row buffer), which is a
no-op and leaves the flag clear. -/
theorem claim_C6_witness :
    ((Document.open "t".toList "a".toList).insert { x := 0, y := 5 } 'z').rows =
      (Document.open "t".toList "a".toList).rows ∧
    (Document.open "t".toList "a".toList).dirty = false := by
  exact (claim_C6_amended (Document.open "t".toList "a".toList)
    { x := 0, y := 5 } { x := 0, y := 0 } 'z').1 (by decide)

/-- C6 counterexample: on a freshly loaded document with the single line
"a", deleting at column 1 (the end of the last line) leaves the content
exactly as loaded yet sets the dirty flag, so "dirty iff content differs
from last load" is false, and the no-op delete does not leave the flag
unchanged. -/
theorem claim_C6_counterexample :
    ((Document.open "t".toList "a".toList).delete { x := 1, y := 0 }).rows =
      (Document.open "t".toList "a".toList).rows ∧
    ((Document.open "t".toList "a".toList).delete { x := 1, y := 0 }).dirty = true ∧
    (Document.open "t".toList "a".toList).dirty = false := by
  decide

theorem saveGo_ok (writeOk : Nat → Bool) :
    ∀ (rows : List Row) (k : Nat),
      (∀ j, j < 2 * rows.length → writeOk (k + j) = true) →
      saveGo writeOk k rows =
        (true, (rows.map (fun r => r.string ++ ['\n'])).flatten) := by
  intro rows
  induction rows with
  | nil => intro k _; simp [saveGo]
  | cons r rs ih =>
    intro k hall
    have h0 : writeOk k = true := by
      have := hall 0 (by simp only [List.length_cons]; omega)
      simpa using this
    have h1 : writeOk (k + 1) = true :=
      hall 1 (by simp only [List.length_cons]; omega)
    have hrest : ∀ j, j < 2 * rs.length → writeOk (k + 2 + j) = true := by
      intro j hj
      have := hall (j + 2) (by simp only [List.length_cons]; omega)
      rw [show k + 2 + j = k + (j + 2) by omega]
      exact this
    simp [saveGo, h0, h1, ih (k + 2) hrest, List.append_assoc]

theorem saveGo_fail (writeOk : Nat → Bool) :
    ∀ (rows : List Row) (k : Nat),
      ¬(∀ j, j < 2 * rows.length → writeOk (k + j) = true) →
      (saveGo writeOk k rows).1 = false := by
  intro rows
  induction rows with
  | nil =>
    intro k h
    refine absurd ?_ h
    intro j hj
    simp only [List.length_nil] at hj
    omega
  | cons r rs ih =>
    intro k h
    by_cases h0 : writeOk k = false
    · simp [saveGo, h0]
    · by_cases h1 : writeOk (k + 1) = false
      · simp [saveGo, h0, h1]
      · simp only [saveGo, h0, h1, if_false]
        refine ih (k + 2) ?_
        intro hall
        refine h ?_
        intro j hj
        match j with
        | 0 => simpa using Bool.not_eq_false .. |>.mp h0
        | 1 => exact Bool.not_eq_false .. |>.mp h1
        | j' + 2 =>
          have := hall j' (by simp only [List.length_cons] at hj; omega)
          rw [show k + (j' + 2) = k + 2 + j' by omega]
          exact this

/-- C7 (amended): with a bound file name, a failed `File::create` leaves
the buffer fully unmodified; if creation succeeds and every write
succeeds, save writes every line's text followed by a newline (a trailing
newline after the last line), re-derives the file type from the target
path, clears the dirty flag, and leaves the rows alone; if any write
fails, save reports the error and leaves rows and dirty flag unchanged,
but the file type has already been re-derived from the target path (it is
not rolled back). -/
theorem claim_C7_amended (d : Document) (name : List Char) (createOk : Bool)
    (writeOk : Nat → Bool) (hname : d.file_name = Option.some name) :
    (createOk = false →
      d.save createOk writeOk = { ok := false, doc := d, written := [] }) ∧
    (createOk = true → (∀ j, j < 2 * d.rows.length → writeOk j = true) →
      (d.save createOk writeOk).ok = true ∧
      (d.save createOk writeOk).doc.rows = d.rows ∧
      (d.save createOk writeOk).doc.dirty = false ∧
      (d.save createOk writeOk).doc.file_type = FileType.ofName name ∧
      (d.save createOk writeOk).doc.file_name = d.file_name ∧
      (d.save createOk writeOk).written =
        (d.rows.map (fun r => r.string ++ ['\n'])).flatten) ∧
    (createOk = true → ¬(∀ j, j < 2 * d.rows.length → writeOk j = true) →
      (d.save createOk writeOk).ok = false ∧
      (d.save createOk writeOk).doc.rows = d.rows ∧
      (d.save createOk writeOk).doc.dirty = d.dirty ∧
      (d.save createOk writeOk).doc.file_type = FileType.ofName name) := by
  refine ⟨?_, ?_, ?_⟩
  · intro hck
    simp [Document.save, hname, hck]
  · intro hck hall
    have hall0 : ∀ j, j < 2 * d.rows.length → writeOk (0 + j) = true := by
      intro j hj
      rw [Nat.zero_add]
      exact hall j hj
    simp [Document.save, hname, hck, saveGo_ok writeOk d.rows 0 hall0]
  · intro hck hfail
    have hfail0 : ¬(∀ j, j < 2 * d.rows.length → writeOk (0 + j) = true) := by
      intro hall
      exact hfail (fun j hj => by have := hall j hj; rwa [Nat.zero_add] at this)
    have h1 : (saveGo writeOk 0 d.rows).1 = false := saveGo_fail writeOk d.rows 0 hfail0
    simp [Document.save, hname, hck, h1]

/-- C7 witness: the amended statement applied at `saveDoc` with all writes
succeeding. -/
theorem claim_C7_witness :
    (saveDoc.save true (fun _ => true)).ok = true ∧
    (saveDoc.save true (fun _ => true)).doc.rows = saveDoc.rows ∧
    (saveDoc.save true (fun _ => true)).doc.dirty = false ∧
    (saveDoc.save true (fun _ => true)).doc.file_type = FileType.ofName ("a.rs".toList) ∧
    (saveDoc.save true (fun _ => true)).doc.file_name = saveDoc.file_name ∧
    (saveDoc.save true (fun _ => true)).written =
      (saveDoc.rows.map (fun r => r.string ++ ['\n'])).flatten :=
  (claim_C7_amended saveDoc ("a.rs".toList) true (fun _ => true) rfl).2.1 rfl
    (by decide)

/-- C7 counterexample: on `saveDoc`, if the first write fails the save
reports an error but the document's file type has changed (it was
re-derived from "a.rs" before the writes), so the buffer is not left
unmodified on failure as the claim states. -/
theorem claim_C7_counterexample :
    (saveDoc.save true (fun _ => false)).ok = false ∧
    (saveDoc.save true (fun _ => false)).doc.file_type ≠ saveDoc.file_type := by
  decide

/-- C10: with no bound file name, `save` returns `Ok`, writes nothing and
leaves the document untouched. -/
theorem claim_C10 (d : Document) (createOk : Bool) (writeOk : Nat → Bool)
    (h : d.file_name = Option.none) :
    d.save createOk writeOk = { ok := true, doc := d, written := [] } := by
  simp [Document.save, h]

/-- C10 witness: saving the default (unbound) document. -/
theorem claim_C10_witness :
    Document.default.save true (fun _ => true) =
      { ok := true, doc := Document.default, written := [] } :=
  claim_C10 Document.default true (fun _ => true) rfl

theorem findGo_spec (query : List Char) :
    ∀ (gs : List (List Char)) (i x : Nat),
      findGo query i gs = Option.some x →
      i ≤ x ∧ query.isPrefixOf (gs.drop (x - i)).flatten = true ∧
      (∀ j, j < x - i → query.isPrefixOf (gs.drop j).flatten = false) := by
  intro gs
  induction gs with
  | nil =>
    intro i x h
    rw [findGo] at h
    by_cases hp : query.isPrefixOf ([] : List Char) = true
    · rw [if_pos hp] at h
      cases h
      refine ⟨Nat.le_refl _, ?_, ?_⟩
      · simpa using hp
      · intro j hj; omega
    · rw [if_neg hp] at h
      cases h
  | cons g rest ih =>
    intro i x h
    rw [findGo] at h
    by_cases hp : query.isPrefixOf ((g :: rest).flatten) = true
    · rw [if_pos hp] at h
      cases h
      refine ⟨Nat.le_refl _, ?_, ?_⟩
      · simpa [Nat.sub_self] using hp
      · intro j hj; omega
    · rw [if_neg hp] at h
      obtain ⟨hle, hpre, hfirst⟩ := ih (i + 1) x h
      have hk : x - i = (x - (i + 1)) + 1 := by omega
      refine ⟨by omega, ?_, ?_⟩
      · rw [hk, List.drop_succ_cons]
        exact hpre
      · intro j hj
        match j with
        | 0 =>
          simp only [List.drop_zero]
          simp only [Bool.not_eq_true] at hp
          exact hp
        | j' + 1 =>
          rw [List.drop_succ_cons]
          exact hfirst j' (by omega)

/-- The position returned by `Row::find(query, 0)` is exactly the first
grapheme offset at which the query starts. -/
theorem row_find_spec (r : Row) (query : List Char) (x : Nat)
    (h : r.find query 0 = Option.some x) :
    query.isPrefixOf (((graphemes r.string).drop x).flatten) = true ∧
    ∀ j, j < x → query.isPrefixOf (((graphemes r.string).drop j).flatten) = false := by
  rw [Row.find, List.drop_zero] at h
  obtain ⟨_, hpre, hfirst⟩ := findGo_spec query (graphemes r.string) 0 x h
  rw [Nat.sub_zero] at hpre hfirst
  exact ⟨hpre, hfirst⟩

theorem findAllGo_spec (query : List Char) :
    ∀ (rows : List Row) (y0 : Nat),
      (∀ p ∈ findAllGo query y0 rows, y0 ≤ p.y ∧
        ∃ r, rows.get? (p.y - y0) = Option.some r ∧
          r.find query 0 = Option.some p.x) ∧
      (findAllGo query y0 rows).Pairwise (fun p q => p.y < q.y) := by
  intro rows
  induction rows with
  | nil => intro y0; simp [findAllGo]
  | cons row rest ih =>
    intro y0
    rw [findAllGo]
    obtain ⟨ihmem, ihpair⟩ := ih (y0 + 1)
    cases hfind : row.find query 0 with
    | none =>
      refine ⟨?_, ihpair⟩
      intro p hp
      obtain ⟨hle, r, hr, hx⟩ := ihmem p hp
      refine ⟨by omega, r, ?_, hx⟩
      rw [show p.y - y0 = (p.y - (y0 + 1)) + 1 by omega, List.get?_cons_succ]
      exact hr
    | some x =>
      constructor
      · intro p hp
        rcases List.mem_cons.mp hp with hp | hp
        · subst hp
          exact ⟨Nat.le_refl _, row, by simp, hfind⟩
        · obtain ⟨hle, r, hr, hx⟩ := ihmem p hp
          refine ⟨by omega, r, ?_, hx⟩
          rw [show p.y - y0 = (p.y - (y0 + 1)) + 1 by omega, List.get?_cons_succ]
          exact hr
      · refine List.Pairwise.cons ?_ ihpair
        intro q hq
        have := (ihmem q hq).1
        show y0 < q.y
        omega

/-- C9: `find_all` returns positions in strictly increasing line order (so
at most one per line), and each returned column is exactly the first
grapheme offset in its line at which the query substring starts. -/
theorem claim_C9 (d : Document) (query : List Char) :
    (d.find_all query).Pairwise (fun p q => p.y < q.y) ∧
    ∀ p ∈ d.find_all query, ∃ r, d.row p.y = Option.some r ∧
      query.isPrefixOf (((graphemes r.string).drop p.x).flatten) = true ∧
      ∀ j, j < p.x →
        query.isPrefixOf (((graphemes r.string).drop j).flatten) = false := by
  obtain ⟨hmem, hpair⟩ := findAllGo_spec query d.rows 0
  refine ⟨hpair, ?_⟩
  intro p hp
  obtain ⟨_, r, hr, hx⟩ := hmem p hp
  rw [Nat.sub_zero] at hr
  obtain ⟨hpre, hfirst⟩ := row_find_spec r query p.x hx
  exact ⟨r, hr, hpre, hfirst⟩

/-- C9 witness: on the two-line document "ab"/"cab", searching "ab"
returns the position (column 1, line 1) on the second line; the theorem
instantiated there yields the exact-start-offset facts. -/
theorem claim_C9_witness :
    ∃ r, (Document.open "t".toList ("ab\ncab".toList)).row 1 = Option.some r ∧
      ['a', 'b'].isPrefixOf (((graphemes r.string).drop 1).flatten) = true ∧
      ∀ j, j < 1 →
        ['a', 'b'].isPrefixOf (((graphemes r.string).drop j).flatten) = false := by
  refine (claim_C9 (Document.open "t".toList ("ab\ncab".toList)) ['a', 'b']).2
    { x := 1, y := 1 } ?_
  decide

theorem hlGo_length (opts : HighlightingOptions) (word : Option (List Char)) :
    ∀ (rows : List Row) (b : Bool), (hlGo opts word b rows).1.length = rows.length := by
  intro rows
  induction rows with
  | nil => intro b; rfl
  | cons r rs ih => intro b; simp [hlGo, ih]

theorem hlGo_get (opts : HighlightingOptions) (word : Option (List Char)) :
    ∀ (rows : List Row) (b : Bool) (i : Nat), i < rows.length →
      ∃ r, rows.get? i = Option.some r ∧
        (hlGo opts word b rows).1.get? i =
          Option.some ((r.highlight opts word
            ((hlGo opts word b (rows.take i)).2)).1) := by
  intro rows
  induction rows with
  | nil => intro b i hi; simp at hi
  | cons row rest ih =>
    intro b i hi
    match i with
    | 0 => exact ⟨row, rfl, rfl⟩
    | i + 1 =>
      obtain ⟨r, hr, hres⟩ :=
        ih ((row.highlight opts word b).2) i (by simp only [List.length_cons] at hi; omega)
      refine ⟨r, by simpa using hr, ?_⟩
      show ((hlGo opts word ((row.highlight opts word b).2) rest).1).get? i = _
      rw [hres, List.take_succ_cons]
      rfl

theorem hlGo_snd_take_succ (opts : HighlightingOptions) (word : Option (List Char)) :
    ∀ (rows : List Row) (b : Bool) (i : Nat), i < rows.length →
      ∃ r, rows.get? i = Option.some r ∧
        (hlGo opts word b (rows.take (i + 1))).2 =
          (r.highlight opts word ((hlGo opts word b (rows.take i)).2)).2 := by
  intro rows
  induction rows with
  | nil => intro b i hi; simp at hi
  | cons row rest ih =>
    intro b i hi
    match i with
    | 0 => exact ⟨row, rfl, rfl⟩
    | i + 1 =>
      obtain ⟨r, hr, hres⟩ :=
        ih ((row.highlight opts word b).2) i (by simp only [List.length_cons] at hi; omega)
      refine ⟨r, by simpa using hr, ?_⟩
      rw [List.take_succ_cons, List.take_succ_cons]
      show (hlGo opts word ((row.highlight opts word b).2) (rest.take (i + 1))).2 = _
      rw [hres]
      rfl

/-- C3 (amended): `highlight(word, Some u)` re-runs the highlighter over
exactly the rows of the half-open range `[0, u)` clamped to the buffer
length (not the inclusive `[0, u]`), threading carry state: row 0 starts
from carry `false` and each row's carry-out is the next row's carry-in;
rows at or past the clamp are untouched, and `None` behaves as
`Some (buffer length)`, highlighting every row. -/
theorem claim_C3_amended (d : Document) (word : Option (List Char)) (u : Nat) :
    (d.unwrap_until u = min u d.rows.length) ∧
    ((d.highlight word (Option.some u)).rows.length = d.rows.length) ∧
    (∀ i, i < d.unwrap_until u → ∃ r, d.rows.get? i = Option.some r ∧
      (d.highlight word (Option.some u)).rows.get? i =
        Option.some ((r.highlight d.file_type.hlopts word
          (carryAt d.file_type.hlopts word d.rows i)).1)) ∧
    (∀ i, d.unwrap_until u ≤ i →
      (d.highlight word (Option.some u)).rows.get? i = d.rows.get? i) ∧
    (carryAt d.file_type.hlopts word d.rows 0 = false) ∧
    (∀ i, i < d.rows.length → ∃ r, d.rows.get? i = Option.some r ∧
      carryAt d.file_type.hlopts word d.rows (i + 1) =
        (r.highlight d.file_type.hlopts word
          (carryAt d.file_type.hlopts word d.rows i)).2) ∧
    (d.highlight word Option.none = d.highlight word (Option.some d.rows.length)) := by
  have hmin : d.unwrap_until u = min u d.rows.length := by
    rw [Document.unwrap_until, Nat.min_def]
  have hn_le : d.unwrap_until u ≤ d.rows.length := by rw [hmin]; omega
  have hrows : (d.highlight word (Option.some u)).rows =
      (hlGo d.file_type.hlopts word false (d.rows.take (d.unwrap_until u))).1 ++
        d.rows.drop (d.unwrap_until u) := rfl
  have hlen1 : ((hlGo d.file_type.hlopts word false
      (d.rows.take (d.unwrap_until u))).1).length = d.unwrap_until u := by
    rw [hlGo_length, List.length_take]
    omega
  refine ⟨hmin, ?_, ?_, ?_, rfl, ?_, ?_⟩
  · rw [hrows, List.length_append, hlen1, List.length_drop]
    omega
  · intro i hi
    obtain ⟨r, hr, hres⟩ := hlGo_get d.file_type.hlopts word
      (d.rows.take (d.unwrap_until u)) false i (by rw [List.length_take]; omega)
    rw [List.get?_take hi] at hr
    refine ⟨r, hr, ?_⟩
    rw [hrows, List.get?_append (by omega), hres]
    rw [List.take_take, Nat.min_def, if_pos (by omega)]
    rfl
  · intro i hi
    rw [hrows, List.get?_append_right (by omega), hlen1]
    rw [List.get?_eq_getElem?, List.get?_eq_getElem?, List.getElem?_drop]
    congr 1
    omega
  · intro i hi
    exact hlGo_snd_take_succ d.file_type.hlopts word d.rows false i hi
  · have hself : d.unwrap_until d.rows.length = d.rows.length := by
      simp [Document.unwrap_until]
    rw [Document.highlight, Document.highlight, hself]

/-- C3 witness: on the two-line document "a"/"b" with `until = 1`, line 0
is re-highlighted with carry-in `false` and line 1 is untouched. -/
theorem claim_C3_witness :
    (∃ r, (Document.open "t".toList "a\nb".toList).rows.get? 0 = Option.some r ∧
      ((Document.open "t".toList "a\nb".toList).highlight Option.none
          (Option.some 1)).rows.get? 0 =
        Option.some ((r.highlight
          (Document.open "t".toList "a\nb".toList).file_type.hlopts Option.none
          (carryAt (Document.open "t".toList "a\nb".toList).file_type.hlopts
            Option.none (Document.open "t".toList "a\nb".toList).rows 0)).1)) ∧
    ((Document.open "t".toList "a\nb".toList).highlight Option.none
        (Option.some 1)).rows.get? 1 =
      (Document.open "t".toList "a\nb".toList).rows.get? 1 := by
  obtain ⟨_, _, hin, hout, _, _, _⟩ :=
    claim_C3_amended (Document.open "t".toList "a\nb".toList) Option.none 1
  exact ⟨hin 0 (by decide), hout 1 (by decide)⟩

/-- C3 counterexample: on a one-line document, `highlight(None, Some 0)`
touches nothing at all — but re-running the highlighter over the inclusive
range `[0, 0]`, as the claim states, would have marked line 0 as
highlighted. -/
theorem claim_C3_counterexample :
    ((Document.open "t".toList "a".toList).highlight Option.none
        (Option.some 0)).rows = (Document.open "t".toList "a".toList).rows ∧
    ((Document.open "t".toList "a".toList).rows.get? 0).map Row.is_highlighted =
      Option.some false ∧
    ((Document.open "t".toList "a".toList).rows.get? 0).map
        (fun r => ((r.highlight
          (Document.open "t".toList "a".toList).file_type.hlopts
          Option.none false).1).is_highlighted) = Option.some true := by
  decide

theorem scroll_offset_y (e : Editor) :
    (e.scroll).offset.y =
      if e.cursor_position.y < e.offset.y then e.cursor_position.y
      else if e.cursor_position.y ≥ e.offset.y + e.terminal.height then
        e.cursor_position.y - e.terminal.height + 1
      else e.offset.y := rfl

theorem scroll_offset_x (e : Editor) :
    (e.scroll).offset.x =
      if e.cursor_position.x < e.offset.x then e.cursor_position.x
      else if e.cursor_position.x ≥ e.offset.x + e.terminal.width then
        e.cursor_position.x - e.terminal.width + 1
      else e.offset.x := rfl

/-- C4 (amended): after `scroll` the cursor lies inside the viewport
rectangle whenever the terminal reports at least one column and one row;
the buffer contents are irrelevant (`scroll` never reads the document),
and with a zero terminal dimension the invariant can fail even on a
non-empty buffer. -/
theorem claim_C4_amended (e : Editor) (hw : 1 ≤ e.terminal.width)
    (hh : 1 ≤ e.terminal.height) :
    (e.scroll).offset.y ≤ e.cursor_position.y ∧
    e.cursor_position.y < (e.scroll).offset.y + e.terminal.height ∧
    (e.scroll).offset.x ≤ e.cursor_position.x ∧
    e.cursor_position.x < (e.scroll).offset.x + e.terminal.width := by
  rw [scroll_offset_y, scroll_offset_x]
  refine ⟨?_, ?_, ?_, ?_⟩ <;> split_ifs <;> omega

/-- C4 witness: the amended scroll invariant at a concrete editor with a
2×2 terminal and the cursor at (3, 5). -/
theorem claim_C4_witness :
    (scrollEditor.scroll).offset.y ≤ scrollEditor.cursor_position.y ∧
    scrollEditor.cursor_position.y <
      (scrollEditor.scroll).offset.y + scrollEditor.terminal.height ∧
    (scrollEditor.scroll).offset.x ≤ scrollEditor.cursor_position.x ∧
    scrollEditor.cursor_position.x <
      (scrollEditor.scroll).offset.x + scrollEditor.terminal.width :=
  claim_C4_amended scrollEditor (by decide) (by decide)

/-- C4 counterexample: the buffer has one line and one column, yet after
`scroll` on a zero-height terminal the offset row (1) exceeds the cursor
row (0) — the claim's precondition on the buffer alone does not ensure the
invariant. -/
theorem claim_C4_counterexample :
    1 ≤ zeroHeightEditor.document.len ∧
    (∃ r, zeroHeightEditor.document.row 0 = Option.some r ∧ 1 ≤ r.len) ∧
    ¬((zeroHeightEditor.scroll).offset.y ≤ zeroHeightEditor.cursor_position.y) := by
  decide

/-- C5: with the cursor row equal to the buffer length (here the empty
buffer), the word-forward motion hits
`self.document.row(y).unwrap()` on a `None` and panics (`none` in the
model) instead of clamping or no-opping as the spec's bounds policy
requires. -/
theorem claim_C5_bug :
    emptyBufEditor.cursor_position.y = emptyBufEditor.document.len ∧
    emptyBufEditor.move_cursor (Key.char 'w') = Option.none := by
  decide

end Hecto
